import Mathlib

/-!
Shallow embedding of the `embedded-graphics-colorcast` crate (src/lib.rs).

The crate provides a single adapter `Image` wrapping a binary-color pixel
source (an external capability with a size and a pixel lookup), a `position`
(a signed 32-bit 2D point) and a fill `color`.  Its operations are
`new`, `with_center`, `bounding_box`, `translate`, `translate_mut` and `draw`.

Machine integers: `Point` coordinates are Rust `i32` values; arithmetic on
them (the `+` of the ambient geometry library, in release mode) wraps on
overflow.  We model an `i32` value as an `Int` and wrapping arithmetic with
an explicit reduction `wrap32` into the interval `[-2^31, 2^31)`.
`u32` quantities (widths, heights) are modelled as `Nat`; where the code
casts `u32 as i32` we apply `wrap32` to the `Nat` value.

External capabilities (the geometry library, the pixel source, the draw
target) are modelled by their documented contracts: `Rectangle.points`
enumerates a rectangle in row-major order, `Rectangle.with_center` places the
top-left at `center - size.center_offset`, a view is a size together with a
pixel-lookup function returning `some on`, `some off` or `none`
(out of range), and a sink is an arbitrary function consuming the emitted
pixel sequence and returning success or a sink-defined error.
-/

namespace ColorCast

/-- Reduction of an unbounded `Int` to the two's-complement `i32` range
`[-2^31, 2^31)`; this is the wrapping behaviour of Rust release-mode
integer arithmetic. -/
def wrap32 (n : Int) : Int := (n + 2 ^ 31) % 2 ^ 32 - 2 ^ 31

/-- The value `n` is representable as an `i32`. -/
def i32Range (n : Int) : Prop := -(2 ^ 31) ≤ n ∧ n < 2 ^ 31

instance (n : Int) : Decidable (i32Range n) := by
  unfold i32Range; infer_instance

theorem wrap32_mem_range (n : Int) : i32Range (wrap32 n) := by
  unfold wrap32 i32Range
  have h1 : (0 : Int) ≤ (n + 2 ^ 31) % 2 ^ 32 := Int.emod_nonneg _ (by norm_num)
  have h2 : (n + 2 ^ 31) % 2 ^ 32 < 2 ^ 32 := Int.emod_lt_of_pos _ (by norm_num)
  omega

theorem wrap32_eq_self {n : Int} (h : i32Range n) : wrap32 n = n := by
  obtain ⟨h1, h2⟩ := h
  unfold wrap32
  rw [Int.emod_eq_of_lt (by omega) (by omega)]
  omega

theorem wrap32_wrap32 (n : Int) : wrap32 (wrap32 n) = wrap32 n :=
  wrap32_eq_self (wrap32_mem_range n)

theorem wrap32_add_right (a b : Int) : wrap32 (a + wrap32 b) = wrap32 (a + b) := by
  unfold wrap32
  have hb := Int.emod_add_ediv (b + 2 ^ 31) (2 ^ 32)
  set q := (b + 2 ^ 31) / 2 ^ 32 with hq
  have : a + ((b + 2 ^ 31) % 2 ^ 32 - 2 ^ 31) + 2 ^ 31 = a + b + 2 ^ 31 + 2 ^ 32 * (-q) := by
    omega
  rw [this, Int.add_mul_emod_self_left]

theorem wrap32_add_left (a b : Int) : wrap32 (wrap32 a + b) = wrap32 (a + b) := by
  rw [show wrap32 a + b = b + wrap32 a by ring, wrap32_add_right, Int.add_comm]

theorem wrap32_inj {a b : Int} (h : wrap32 a = wrap32 b)
    (hab : a - b < 2 ^ 32) (hba : b - a < 2 ^ 32) : a = b := by
  have hmod : (a + 2 ^ 31) % 2 ^ 32 = (b + 2 ^ 31) % 2 ^ 32 := by
    unfold wrap32 at h; omega
  have hsub : (a + 2 ^ 31 - (b + 2 ^ 31)) % 2 ^ 32 = 0 :=
    Int.emod_eq_emod_iff_emod_sub_eq_zero.mp hmod
  have hdvd : (2 ^ 32 : Int) ∣ (a + 2 ^ 31 - (b + 2 ^ 31)) :=
    Int.dvd_of_emod_eq_zero hsub
  obtain ⟨k, hk⟩ := hdvd
  omega

/-- A signed 2D integer point: `embedded_graphics::geometry::Point`
(`x y : i32`).  No invariant is imposed on the fields; all points built by
the operations below have `wrap32`-reduced coordinates, matching `i32`. -/
structure Point where
  x : Int
  y : Int
deriving DecidableEq, Repr

/-- `i32` addition of points (wrapping), the ambient geometry library's
`Add` for `Point`. -/
def Point.add (p q : Point) : Point := ⟨wrap32 (p.x + q.x), wrap32 (p.y + q.y)⟩

instance : Add Point := ⟨Point.add⟩

theorem Point.add_def (p q : Point) :
    p + q = ⟨wrap32 (p.x + q.x), wrap32 (p.y + q.y)⟩ := rfl

/-- `Point::zero()`. -/
def Point.zero : Point := ⟨0, 0⟩

/-- Both coordinates are representable `i32` values (always true of a Rust
`Point`; our model leaves the fields unbounded, so theorems about points not
produced by the wrapped arithmetic assume this explicitly). -/
def Point.i32 (p : Point) : Prop := i32Range p.x ∧ i32Range p.y

instance (p : Point) : Decidable p.i32 := by
  unfold Point.i32; infer_instance

theorem Point.zero_add_of_i32 {p : Point} (h : p.i32) : Point.zero + p = p := by
  obtain ⟨hx, hy⟩ := h
  simp [Point.add_def, Point.zero, wrap32_eq_self hx, wrap32_eq_self hy]

/-- An unsigned 2D size: `embedded_graphics::geometry::Size`
(`width height : u32`, modelled as `Nat`). -/
structure Size where
  width : Nat
  height : Nat
deriving DecidableEq, Repr

/-- The Rust cast `u32 as i32`: reinterpretation of the 32-bit pattern. -/
def u32AsI32 (w : Nat) : Int := wrap32 w

/-- `Size::center_offset`: `(size.saturating_sub(Size::new(1, 1))) / 2`
componentwise; `Nat` subtraction is saturating. -/
def Size.center_offset (s : Size) : Size := ⟨(s.width - 1) / 2, (s.height - 1) / 2⟩

/-- The geometry library's `Point - Size` (componentwise, widths cast
`u32 as i32`, wrapping `i32` subtraction). -/
def Point.subSize (p : Point) (s : Size) : Point :=
  ⟨wrap32 (p.x - u32AsI32 s.width), wrap32 (p.y - u32AsI32 s.height)⟩

/-- The geometry library's `Point + Size` (componentwise, widths cast
`u32 as i32`, wrapping `i32` addition). -/
def Point.addSize (p : Point) (s : Size) : Point :=
  ⟨wrap32 (p.x + u32AsI32 s.width), wrap32 (p.y + u32AsI32 s.height)⟩

/-- An axis-aligned rectangle: `embedded_graphics::primitives::Rectangle`. -/
structure Rectangle where
  top_left : Point
  size : Size
deriving DecidableEq, Repr

/-- `Rectangle::with_center(center, size)`:
`top_left = center - size.center_offset()`. -/
def Rectangle.with_center (center : Point) (size : Size) : Rectangle :=
  ⟨center.subSize size.center_offset, size⟩

/-- `Rectangle::center()`: `top_left + size.center_offset()`. -/
def Rectangle.center (r : Rectangle) : Point := r.top_left.addSize r.size.center_offset

/-- `Rectangle::translate(by)`: moves `top_left` by `by`, keeps the size. -/
def Rectangle.translate (r : Rectangle) (d : Point) : Rectangle :=
  ⟨r.top_left + d, r.size⟩

/-- The rectangle's point set as enumerated by `PointsIter`
(`Rectangle::points()`): row-major order, each row from top to bottom and
within a row from left to right. -/
def Rectangle.points (r : Rectangle) : List Point :=
  (List.range r.size.height).flatMap fun (y : Nat) =>
    (List.range r.size.width).map fun (x : Nat) =>
      Point.mk (r.top_left.x + (x : Int)) (r.top_left.y + (y : Int))

/-- `Rectangle::contains`: the point lies inside the rectangle. -/
def Rectangle.contains (r : Rectangle) (p : Point) : Prop :=
  r.top_left.x ≤ p.x ∧ p.x < r.top_left.x + r.size.width ∧
  r.top_left.y ≤ p.y ∧ p.y < r.top_left.y + r.size.height

instance (r : Rectangle) (p : Point) : Decidable (r.contains p) := by
  unfold Rectangle.contains; infer_instance

/-- `embedded_graphics::pixelcolor::BinaryColor`. -/
inductive BinaryColor
  | off
  | on
deriving DecidableEq, Repr

/-- The external binary pixel source consumed by the adapter: anything with
`OriginDimensions` (a `u32` width and height; its bounding box is anchored at
the local origin) and `GetPixel` with `Color = BinaryColor` (`pixel` returns
`none` when the queried point is out of range). -/
structure BinaryView where
  width : Nat
  height : Nat
  pixel : Point → Option BinaryColor

/-- `OriginDimensions::size()` of the view. -/
def BinaryView.size (v : BinaryView) : Size := ⟨v.width, v.height⟩

/-- The view's own bounding box: `Rectangle::new(Point::zero(), self.size())`,
as provided for every `OriginDimensions` type. -/
def BinaryView.bounding_box (v : BinaryView) : Rectangle :=
  ⟨Point.zero, v.size⟩

/-- `embedded_graphics::Pixel`: a drawn position paired with a color. -/
structure Pixel (C : Type) where
  position : Point
  color : C
deriving DecidableEq, Repr

/-- The adapter itself: `Image<'a, T, C>` with fields `image` (the borrowed
view), `position` and `color` (src/lib.rs lines 57-66). -/
structure Image (C : Type) where
  image : BinaryView
  position : Point
  color : C

/-- `Image::new` (src/lib.rs lines 74-80): stores the three fields verbatim. -/
def Image.new {C : Type} (image : BinaryView) (position : Point) (color : C) :
    Image C :=
  ⟨image, position, color⟩

/-- `Image::with_center` (src/lib.rs lines 83-90):
`position = Rectangle::with_center(center, image.size()).top_left`. -/
def Image.with_center {C : Type} (image : BinaryView) (center : Point) (color : C) :
    Image C :=
  ⟨image, (Rectangle.with_center center image.size).top_left, color⟩

/-- `Image::bounding_box` (src/lib.rs lines 191-193):
`self.image.bounding_box().translate(self.position)`. -/
def Image.bounding_box {C : Type} (img : Image C) : Rectangle :=
  img.image.bounding_box.translate img.position

/-- `Image::translate` (src/lib.rs lines 146-152): a new image whose
position is `self.position + by`; `image` and `color` are carried over. -/
def Image.translate {C : Type} (img : Image C) (d : Point) : Image C :=
  ⟨img.image, img.position + d, img.color⟩

/-- `Image::translate_mut` (src/lib.rs lines 179-183): the state of the
receiver after `self.position += by` (in-place mutation modelled by
returning the updated record). -/
def Image.translate_mut {C : Type} (img : Image C) (d : Point) : Image C :=
  { img with position := img.position + d }

/-- The pixel sequence `draw` feeds to the sink (src/lib.rs lines 105-111):
`self.image.bounding_box().points()` filtered/mapped by the closure; the
`flat_map` over an `Option` is a `filterMap`. -/
def Image.drawPixels {C : Type} (img : Image C) : List (Pixel C) :=
  img.image.bounding_box.points.filterMap fun point =>
    if img.image.pixel point = some BinaryColor.on then
      some ⟨img.position + point, img.color⟩
    else
      none

/-- `Image::draw` (src/lib.rs lines 101-112): a single call
`target.draw_iter(<the sequence>)`, whose result is returned as is.  The
draw target's `draw_iter` entry point is the opaque sink: an arbitrary
function from the emitted sequence to success or a sink-defined error. -/
def Image.draw {C E : Type} (img : Image C)
    (draw_iter : List (Pixel C) → Except E Unit) : Except E Unit :=
  draw_iter img.drawPixels

/-- Strict row-major precedence on points: earlier row, or same row and
smaller column. -/
def rowMajorLt (a b : Point) : Prop := a.y < b.y ∨ (a.y = b.y ∧ a.x < b.x)

instance (a b : Point) : Decidable (rowMajorLt a b) := by
  unfold rowMajorLt; infer_instance

theorem Rectangle.mem_points {r : Rectangle} {p : Point} :
    p ∈ r.points ↔ r.contains p := by
  unfold Rectangle.points Rectangle.contains
  simp only [List.mem_flatMap, List.mem_map, List.mem_range]
  constructor
  · rintro ⟨y, hy, x, hx, rfl⟩
    dsimp only
    exact ⟨by omega, by omega, by omega, by omega⟩
  · intro h
    obtain ⟨px, py⟩ := p
    obtain ⟨h1, h2, h3, h4⟩ := h
    dsimp only at h1 h2 h3 h4
    refine ⟨(py - r.top_left.y).toNat, by omega,
      (px - r.top_left.x).toNat, by omega, ?_⟩
    simp only [Point.mk.injEq]
    exact ⟨by omega, by omega⟩

theorem flatMap_rows_pairwise (tlx tly : Int) (w h : Nat) :
    ((List.range h).flatMap fun (y : Nat) => (List.range w).map fun (x : Nat) =>
      Point.mk (tlx + (x : Int)) (tly + (y : Int))).Pairwise rowMajorLt := by
  have hrow : ∀ y : Nat,
      ((List.range w).map fun (x : Nat) =>
        Point.mk (tlx + (x : Int)) (tly + (y : Int))).Pairwise rowMajorLt := by
    intro y
    rw [List.pairwise_map]
    refine (List.pairwise_lt_range w).imp ?_
    intro a b hab
    exact Or.inr ⟨rfl, by dsimp only; omega⟩
  induction h with
  | zero => simp
  | succ n ih =>
    rw [List.range_succ, List.flatMap_append]
    refine List.pairwise_append.mpr ⟨ih, ?_, ?_⟩
    · rw [List.flatMap_cons, List.flatMap_nil, List.append_nil]
      exact hrow n
    · intro a ha b hb
      simp only [List.mem_flatMap, List.mem_map, List.mem_range] at ha
      rw [List.flatMap_cons, List.flatMap_nil, List.append_nil] at hb
      simp only [List.mem_map, List.mem_range] at hb
      obtain ⟨y, hy, x, _, rfl⟩ := ha
      obtain ⟨x', _, rfl⟩ := hb
      exact Or.inl (by dsimp only; omega)

theorem Rectangle.points_pairwise (r : Rectangle) : r.points.Pairwise rowMajorLt :=
  flatMap_rows_pairwise r.top_left.x r.top_left.y r.size.width r.size.height

theorem Rectangle.points_eq_nil (r : Rectangle)
    (h : r.size.width = 0 ∨ r.size.height = 0) : r.points = [] := by
  unfold Rectangle.points
  rcases h with h | h <;> rw [h] <;> simp

theorem filterMap_ite_eq_filter_map {α β : Type} (p : α → Prop) [DecidablePred p]
    (g : α → β) (l : List α) :
    (l.filterMap fun a => if p a then some (g a) else none) =
      (l.filter fun a => decide (p a)).map g := by
  induction l with
  | nil => rfl
  | cons a l ih =>
    by_cases h : p a <;>
      simp [List.filterMap_cons, List.filter_cons, h, ih]

theorem Point.eq_of {p q : Point} (hx : p.x = q.x) (hy : p.y = q.y) : p = q := by
  cases p; cases q; cases hx; cases hy; rfl

theorem BinaryView.contains_iff (v : BinaryView) (p : Point) :
    v.bounding_box.contains p ↔
      0 ≤ p.x ∧ p.x < (v.width : Int) ∧ 0 ≤ p.y ∧ p.y < (v.height : Int) := by
  unfold BinaryView.bounding_box Rectangle.contains BinaryView.size Point.zero
  dsimp only
  omega

theorem wrap32_add_cancel {a x y : Int} (hx0 : 0 ≤ x) (hx1 : x < 2 ^ 32)
    (hy0 : 0 ≤ y) (hy1 : y < 2 ^ 32)
    (h : wrap32 (a + x) = wrap32 (a + y)) : x = y := by
  have := wrap32_inj h (by omega) (by omega)
  omega

theorem wrap32_sub_add_roundtrip {c o : Int} (hc : i32Range c) :
    wrap32 (wrap32 (c - o) + o) = c := by
  rw [wrap32_add_left, show c - o + o = c by ring]
  exact wrap32_eq_self hc

/-- Claim C3: the bounding box of `Image::new(view, position, color)` is the
view's own bounding box (top-left at the local origin, the view's width and
height) translated by `position` (src/lib.rs lines 191-193). -/
theorem bounding_box_translation_law {C : Type} (v : BinaryView) (P : Point) (c : C) :
    (Image.new v P c).bounding_box = (Rectangle.mk Point.zero v.size).translate P := rfl

/-- Claim C5: the bounding box of `Image::with_center(view, center, color)`
is exactly `Rectangle::with_center(center, view.size())`, the rectangle of
the view's size centered on `center` under the geometry library's
rectangle-centering convention. -/
theorem with_center_centering_law {C : Type} (v : BinaryView) (center : Point) (c : C) :
    (Image.with_center v center c).bounding_box = Rectangle.with_center center v.size := by
  simp only [Image.with_center, Image.bounding_box, BinaryView.bounding_box,
    Rectangle.translate, Rectangle.with_center, Point.subSize, Point.add_def,
    Point.zero, Rectangle.mk.injEq, Point.mk.injEq]
  refine ⟨⟨?_, ?_⟩, trivial⟩ <;> simp [wrap32_wrap32]

/-- Claim C6: `translate` produces a new image whose position is the old
position plus the delta, with the view reference and color carried over
unchanged, and `translate_mut` leaves the receiver in exactly the state
`translate` returns (same position, same view reference, same color). -/
theorem translate_purity_equiv {C : Type} (img : Image C) (d : Point) :
    (img.translate d).position = img.position + d ∧
    (img.translate d).image = img.image ∧
    (img.translate d).color = img.color ∧
    img.translate_mut d = img.translate d ∧
    (img.translate_mut d).image = img.image ∧
    (img.translate_mut d).color = img.color :=
  ⟨rfl, rfl, rfl, rfl, rfl, rfl⟩

/-- Claim C7: translating twice composes additively on the bounding box's
top-left corner: `img.translate(A).translate(B).bounding_box().top_left`
equals `img.bounding_box().top_left + A + B`. -/
theorem translate_composition {C : Type} (img : Image C) (A B : Point) :
    ((img.translate A).translate B).bounding_box.top_left =
      img.bounding_box.top_left + A + B := by
  simp only [Image.translate, Image.bounding_box, BinaryView.bounding_box,
    Rectangle.translate, Point.add_def, Point.zero, Point.mk.injEq]
  constructor <;>
    simp [wrap32_wrap32, wrap32_add_left, wrap32_add_right, add_assoc]

/-- Claim C1: pixel fidelity of `draw`.  For every local coordinate inside
the view's bounding box, the emitted sequence contains the pixel
`(position + local, color)` exactly when the view's lookup returns `on`
there; every emitted pixel arises this way, so lookups returning `off` or
out-of-range (`none`) produce nothing.  The width/height bounds record that
the view's dimensions are `u32` values. -/
theorem draw_pixel_fidelity {C : Type} (v : BinaryView) (P : Point) (c : C)
    (hw : v.width ≤ 2 ^ 32) (hh : v.height ≤ 2 ^ 32) :
    (∀ L : Point, v.bounding_box.contains L →
      (Pixel.mk (P + L) c ∈ (Image.new v P c).drawPixels ↔
        v.pixel L = some BinaryColor.on)) ∧
    ∀ px ∈ (Image.new v P c).drawPixels,
      ∃ L : Point, v.bounding_box.contains L ∧ v.pixel L = some BinaryColor.on ∧
        px = Pixel.mk (P + L) c := by
  constructor
  · intro L hL
    constructor
    · intro hmem
      simp only [Image.drawPixels, Image.new, List.mem_filterMap] at hmem
      obtain ⟨L', hL', hf⟩ := hmem
      by_cases hon : v.pixel L' = some BinaryColor.on
      · rw [if_pos hon] at hf
        have hpix := Option.some.inj hf
        have hpos : P + L' = P + L := congrArg Pixel.position hpix
        rw [Point.add_def, Point.add_def] at hpos
        obtain ⟨hpx, hpy⟩ := Point.mk.injEq _ _ _ _ |>.mp hpos
        have hbL := (v.contains_iff L).mp hL
        have hbL' := (v.contains_iff L').mp (Rectangle.mem_points.mp hL')
        have hxx : L'.x = L.x :=
          wrap32_add_cancel (by omega) (by omega) (by omega) (by omega) hpx
        have hyy : L'.y = L.y :=
          wrap32_add_cancel (by omega) (by omega) (by omega) (by omega) hpy
        rw [Point.eq_of hxx hyy] at hon
        exact hon
      · rw [if_neg hon] at hf
        cases hf
    · intro hon
      simp only [Image.drawPixels, Image.new, List.mem_filterMap]
      refine ⟨L, Rectangle.mem_points.mpr ?_, by rw [if_pos hon]⟩
      exact hL
  · intro px hpx
    simp only [Image.drawPixels, Image.new, List.mem_filterMap] at hpx
    obtain ⟨L, hL, hf⟩ := hpx
    by_cases hon : v.pixel L = some BinaryColor.on
    · rw [if_pos hon] at hf
      exact ⟨L, Rectangle.mem_points.mp hL, hon, (Option.some.inj hf).symm⟩
    · rw [if_neg hon] at hf
      cases hf

/-- Claim C2: emission order of `draw`.  The emitted sequence is exactly the
row-major enumeration of the view's local bounding box filtered to the
coordinates whose lookup returns `on` (then translated and colored), and
that filtered coordinate list is strictly increasing in row-major order
(rows top to bottom, left to right within a row), for every on/off pattern. -/
theorem draw_emission_order {C : Type} (v : BinaryView) (P : Point) (c : C) :
    (Image.new v P c).drawPixels =
      ((v.bounding_box.points.filter fun L =>
          decide (v.pixel L = some BinaryColor.on)).map
        fun L => Pixel.mk (P + L) c) ∧
    (v.bounding_box.points.filter fun L =>
        decide (v.pixel L = some BinaryColor.on)).Pairwise rowMajorLt := by
  constructor
  · simp only [Image.drawPixels, Image.new]
    exact filterMap_ite_eq_filter_map (fun L => v.pixel L = some BinaryColor.on)
      (fun L => Pixel.mk (P + L) c) _
  · exact (Rectangle.points_pairwise _).filter _

/-- Claim C4: error propagation of `draw`.  `draw` is the single call
`target.draw_iter(<sequence>)`: whatever result the sink returns for the
emitted sequence is returned verbatim, and there is no other fallible step,
so `draw` succeeds exactly when the sink accepts the sequence. -/
theorem draw_error_propagation {C E : Type} (img : Image C)
    (draw_iter : List (Pixel C) → Except E Unit) :
    img.draw draw_iter = draw_iter img.drawPixels ∧
    (draw_iter img.drawPixels = Except.ok () → img.draw draw_iter = Except.ok ()) :=
  ⟨rfl, fun h => h⟩

/-- Debug-profile checked `i32` addition: `none` models the overflow panic
of a checked build; `some` is the exact sum when it is representable. -/
def checkedAdd32 (a b : Int) : Option Int :=
  if i32Range (a + b) then some (a + b) else none

/-- Componentwise checked `i32` point addition. -/
def Point.checkedAdd (p q : Point) : Option Point :=
  match checkedAdd32 p.x q.x, checkedAdd32 p.y q.y with
  | some x, some y => some ⟨x, y⟩
  | _, _ => none

/-- Claim C8: totality of the non-draw operations.  `new`, `with_center`,
`bounding_box`, `translate` and `translate_mut` are total functions of their
arguments in this model (they are plain `def`s evaluated on every input,
including zero-size views); the substantive overflow content is isolated
here: whenever the exact position-plus-delta is representable as `i32`,
checked addition does not panic and returns exactly the position `translate`
computes, that position is the exact (unwrapped) sum and stays in `i32`
range, and `translate_mut` leaves the receiver in the same state. -/
theorem nondraw_totality {C : Type} (img : Image C) (d : Point)
    (hx : i32Range (img.position.x + d.x)) (hy : i32Range (img.position.y + d.y)) :
    Point.checkedAdd img.position d = some (img.translate d).position ∧
    (img.translate d).position = Point.mk (img.position.x + d.x) (img.position.y + d.y) ∧
    (img.translate d).position.i32 ∧
    img.translate_mut d = img.translate d := by
  have hpos : (img.translate d).position =
      Point.mk (img.position.x + d.x) (img.position.y + d.y) := by
    show img.position + d = _
    rw [Point.add_def, wrap32_eq_self hx, wrap32_eq_self hy]
  refine ⟨?_, hpos, ?_, rfl⟩
  · unfold Point.checkedAdd checkedAdd32
    rw [if_pos hx, if_pos hy, hpos]
  · rw [hpos]
    exact ⟨hx, hy⟩

/-- Claim C9: degenerate view.  A view with zero width or zero height makes
`draw` emit the empty pixel sequence, and the bounding box is the zero-size
rectangle (the view's size, one dimension zero) located at the image's
position, for any position and color. -/
theorem degenerate_view {C : Type} (v : BinaryView) (P : Point) (c : C)
    (hz : v.width = 0 ∨ v.height = 0) (hP : P.i32) :
    (Image.new v P c).drawPixels = [] ∧
    (Image.new v P c).bounding_box = Rectangle.mk P v.size ∧
    ((Image.new v P c).bounding_box.size.width = 0 ∨
      (Image.new v P c).bounding_box.size.height = 0) := by
  have hpts : (Image.new v P c).image.bounding_box.points = [] :=
    Rectangle.points_eq_nil _ hz
  refine ⟨?_, ?_, hz⟩
  · simp [Image.drawPixels, hpts]
  · simp only [Image.bounding_box, Image.new, BinaryView.bounding_box,
      Rectangle.translate]
    rw [Point.zero_add_of_i32 hP]

/-- Claim C10: center round-trip.  Building an image with `with_center` and
reading its bounding box's center (under the same rectangle-centering
convention, `Rectangle::center`) returns the original center point, for
every view size including even and zero dimensions. -/
theorem with_center_center_roundtrip {C : Type} (v : BinaryView) (center : Point)
    (c : C) (hc : center.i32) :
    (Image.with_center v center c).bounding_box.center = center := by
  obtain ⟨hcx, hcy⟩ := hc
  simp only [Image.with_center, Image.bounding_box, BinaryView.bounding_box,
    Rectangle.translate, Rectangle.center, Rectangle.with_center, Point.subSize,
    Point.addSize, Point.add_def, Point.zero]
  refine Point.eq_of ?_ ?_ <;>
    simp [wrap32_wrap32, wrap32_sub_add_roundtrip, i32Range, hcx, hcy,
      wrap32_sub_add_roundtrip hcx, wrap32_sub_add_roundtrip hcy]

/-- A concrete 2-by-2 view: the pixel at the local origin is on, the rest of
the box is off, and queries outside the box report out of range. -/
def exView : BinaryView :=
  ⟨2, 2, fun p =>
    if p.x = 0 ∧ p.y = 0 then some BinaryColor.on
    else if 0 ≤ p.x ∧ p.x < 2 ∧ 0 ≤ p.y ∧ p.y < 2 then some BinaryColor.off
    else none⟩

/-- A concrete zero-height view. -/
def exZeroView : BinaryView := ⟨3, 0, fun _ => some BinaryColor.off⟩

/-- A concrete image over `exView`. -/
def exImg : Image Bool := Image.new exView (Point.mk 10 20) true

/-- A concrete translation delta. -/
def exDelta : Point := Point.mk 5 (-7)

/-- A concrete sink that accepts every sequence. -/
def exSink : List (Pixel Bool) → Except Nat Unit := fun _ => Except.ok ()

theorem draw_pixel_fidelity_witness :
    exView.width ≤ 2 ^ 32 ∧ exView.height ≤ 2 ^ 32 ∧
    ((∀ L : Point, exView.bounding_box.contains L →
      (Pixel.mk (Point.mk 3 4 + L) true ∈
          (Image.new exView (Point.mk 3 4) true).drawPixels ↔
        exView.pixel L = some BinaryColor.on)) ∧
    ∀ px ∈ (Image.new exView (Point.mk 3 4) true).drawPixels,
      ∃ L : Point, exView.bounding_box.contains L ∧
        exView.pixel L = some BinaryColor.on ∧
        px = Pixel.mk (Point.mk 3 4 + L) true) :=
  ⟨by norm_num [exView], by norm_num [exView],
    draw_pixel_fidelity exView (Point.mk 3 4) true
      (by norm_num [exView]) (by norm_num [exView])⟩

theorem draw_error_propagation_witness :
    exImg.draw exSink = exSink exImg.drawPixels ∧
    (exSink exImg.drawPixels = Except.ok () → exImg.draw exSink = Except.ok ()) :=
  draw_error_propagation exImg exSink

theorem nondraw_totality_witness :
    i32Range (exImg.position.x + exDelta.x) ∧
    i32Range (exImg.position.y + exDelta.y) ∧
    (Point.checkedAdd exImg.position exDelta = some (exImg.translate exDelta).position ∧
    (exImg.translate exDelta).position =
      Point.mk (exImg.position.x + exDelta.x) (exImg.position.y + exDelta.y) ∧
    (exImg.translate exDelta).position.i32 ∧
    exImg.translate_mut exDelta = exImg.translate exDelta) :=
  ⟨by decide, by decide, nondraw_totality exImg exDelta (by decide) (by decide)⟩

theorem degenerate_view_witness :
    (exZeroView.width = 0 ∨ exZeroView.height = 0) ∧ (Point.mk (-5) 7).i32 ∧
    ((Image.new exZeroView (Point.mk (-5) 7) false).drawPixels = [] ∧
    (Image.new exZeroView (Point.mk (-5) 7) false).bounding_box =
      Rectangle.mk (Point.mk (-5) 7) exZeroView.size ∧
    ((Image.new exZeroView (Point.mk (-5) 7) false).bounding_box.size.width = 0 ∨
      (Image.new exZeroView (Point.mk (-5) 7) false).bounding_box.size.height = 0)) :=
  ⟨by right; rfl, by decide,
    degenerate_view exZeroView (Point.mk (-5) 7) false (by right; rfl) (by decide)⟩

theorem with_center_center_roundtrip_witness :
    (Point.mk 6 9).i32 ∧
    (Image.with_center exView (Point.mk 6 9) false).bounding_box.center =
      Point.mk 6 9 :=
  ⟨by decide, with_center_center_roundtrip exView (Point.mk 6 9) false (by decide)⟩

end ColorCast
